import Mathlib

/-!
# Verification of the alphabet-extractor repository

Shallow embedding of `src/alphabet-extractor.js` and the directed tree
graph module (`directed-graph-tree`).  JavaScript strings are embedded as
`List Char`; the graph's insertion-ordered `Map` is embedded as an
association list; JavaScript recursion that may fail to terminate (a stack
overflow) or throw a `TypeError` is embedded with an explicit fuel
parameter returning `Option`, where `none` models abortive termination.
-/

/-- A JavaScript string: a list of UTF-16 code units (characters). -/
abbrev Str := List Char

/-! ## ConstraintExtractor (`alphabet-extractor.js`) -/

/-- `[...new Set(l)]`: first-occurrence deduplication, as done by a JS `Set`.
`seen` accumulates the elements already kept. -/
def jsSetDedupAux (seen : List Str) : List Str → List Str
  | [] => []
  | a :: rest =>
    if seen.contains a then jsSetDedupAux seen rest
    else a :: jsSetDedupAux (seen ++ [a]) rest

/-- `[...new Set(l)]` on a list of strings. -/
def jsSetDedup (l : List Str) : List Str := jsSetDedupAux [] l

/-- JS default string comparison (`<` on code units, lexicographic),
used by `Array.prototype.sort()` with no comparator. -/
def strLtB : Str → Str → Bool
  | _, [] => false
  | [], _ :: _ => true
  | a :: as, b :: bs =>
    if a.toNat < b.toNat then true
    else if b.toNat < a.toNat then false
    else strLtB as bs

/-- Insert a string into a (sorted) list, before the first element it does
not strictly exceed; models one step of `Array.prototype.sort()`. -/
def insertStr (x : Str) : List Str → List Str
  | [] => [x]
  | y :: ys => if strLtB y x then y :: insertStr x ys else x :: y :: ys

/-- `Array.prototype.sort()` (default string comparator) on a list of
strings.  The inputs it is applied to in the source are duplicate-free, so
any correct comparison sort agrees with this insertion sort. -/
def sortStrs : List Str → List Str
  | [] => []
  | x :: xs => insertStr x (sortStrs xs)

/-- `getUniqueCharSet(words)`: all distinct characters appearing in any
word (each as a one-character string, as produced by `split('')`),
deduplicated in first-occurrence order by a `Set` and then sorted.
Returns `[]` with a console warning when the input list is empty. -/
def getUniqueCharSet (words : List Str) : List Str :=
  if words.isEmpty then []
  else sortStrs (jsSetDedup ((words.map (fun w => w.map (fun c => ([c] : Str)))).flatten))

/-- Append `w` to the bucket of key `k`, or create the bucket at the end:
the JS ad hoc object map `_orderedCharMap[firstChar]` with string keys,
which preserves first-insertion key order (the keys used by the source are
single characters or the empty string, never integer-like). -/
def insertGroup : List (Str × List Str) → Str → Str → List (Str × List Str)
  | [], k, w => [(k, [w])]
  | (k', ws) :: rest, k, w =>
    if k' = k then (k', ws ++ [w]) :: rest
    else (k', ws) :: insertGroup rest k w

/-- The `words.reduce` in `getOrderedCharSet`: group the words by their
first character (`word.charAt(0)`, i.e. `w.take 1`, which is the empty
string for an empty word), preserving first-appearance key order and
in-bucket word order. -/
def groupByFirst (words : List Str) : List (Str × List Str) :=
  words.foldl (fun m w => insertGroup m (w.take 1) w) []

/-- `getOrderedCharSet(words)` with an explicit fuel bounding the JS call
stack: each recursion level strips one leading character, so fuel `0`
(`none`) models the stack overflow the JS engine raises when the recursion
never bottoms out.  At each level the group-key sequence is emitted as a
candidate chain, every bucket with more than one word recurses on the
words with their first character stripped (`substring(1)`), and finally
all chains of length `≤ 1` are filtered out. -/
def getOrderedCharSetF : Nat → List Str → Option (List (List Str))
  | 0, _ => none
  | fuel + 1, words =>
    if words.isEmpty then some []
    else
      let groups := groupByFirst words
      let bigs := (groups.map Prod.snd).filter (fun ws => 1 < ws.length)
      match bigs.foldlM
          (fun acc ws =>
            (getOrderedCharSetF fuel (ws.map (fun w => w.drop 1))).map
              (fun r => acc ++ r))
          [] with
      | none => none
      | some rest =>
        some (((groups.map Prod.fst) :: rest).filter (fun c => 1 < c.length))

/-- Maximum word length in a list. -/
def maxWordLen (words : List Str) : Nat :=
  words.foldl (fun acc w => max acc w.length) 0

/-- `getOrderedCharSet(words)`.  The recursion depth of the source is
bounded by the maximum word length plus one whenever it terminates (each
level strips one character from every word it recurses on), so fuel
`maxWordLen words + 2` is sufficient for every terminating run: `none`
models a JS stack overflow. -/
def getOrderedCharSet (words : List Str) : Option (List (List Str)) :=
  getOrderedCharSetF (maxWordLen words + 2) words

/-! ## Directed tree graph (`directed-graph-tree`) -/

/-- A vertex's node record: `{ vertexStart, isRoot, vertexEnds }`. -/
structure Node where
  vertexStart : Str
  isRoot : Bool
  vertexEnds : List Str
deriving DecidableEq

/-- The graph: `dtg._map`, a JS `Map` from vertex symbol to node,
embedded as an insertion-ordered association list. -/
structure DTG where
  map : List (Str × Node)
deriving DecidableEq

/-- `Map.prototype.get`: the value at the first matching key. -/
def mapGet : List (Str × Node) → Str → Option Node
  | [], _ => none
  | (k', n) :: rest, k => if k' = k then some n else mapGet rest k

/-- `Map.prototype.set`: replace the first matching key's value in place,
or append a new entry at the end. -/
def mapSet : List (Str × Node) → Str → Node → List (Str × Node)
  | [], k, n => [(k, n)]
  | (k', n') :: rest, k, n =>
    if k' = k then (k, n) :: rest else (k', n') :: mapSet rest k n

/-- `DTG.hasVertex`. -/
def hasVertex (g : DTG) (v : Str) : Bool := (mapGet g.map v).isSome

/-- `DTG.isRootVertex`. -/
def isRootVertex (g : DTG) (v : Str) : Bool :=
  match mapGet g.map v with
  | some n => n.isRoot
  | none => false

/-- `DTG.isLeafVertex` on a raw map: not a root and no outgoing edges. -/
def isLeafVertexM (m : List (Str × Node)) (v : Str) : Bool :=
  match mapGet m v with
  | some n => !n.isRoot && n.vertexEnds.isEmpty
  | none => false

/-- `DTG.isBranchVertex` on a raw map: not a root, more than one edge. -/
def isBranchVertexM (m : List (Str × Node)) (v : Str) : Bool :=
  match mapGet m v with
  | some n => !n.isRoot && decide (1 < n.vertexEnds.length)
  | none => false

/-- `DTG.isLeafVertex`. -/
def isLeafVertex (g : DTG) (v : Str) : Bool := isLeafVertexM g.map v

/-- `DTG.isBranchVertex`. -/
def isBranchVertex (g : DTG) (v : Str) : Bool := isBranchVertexM g.map v

/-- `DTG.isFullyConnected`: false on an empty map, otherwise counts the
nodes whose `isRoot` is set and compares the count with `1`. -/
def isFullyConnected (g : DTG) : Bool :=
  if g.map.isEmpty then false
  else (g.map.foldl (fun c kn => if kn.2.isRoot then c + 1 else c) 0) == 1

/-- `DTG.hasEdge`: both vertices exist and the ending vertex occurs among
the starting vertex's outgoing edge targets. -/
def hasEdge (g : DTG) (a b : Str) : Bool :=
  if hasVertex g a && hasVertex g b then
    match mapGet g.map a with
    | some n => n.vertexEnds.contains b
    | none => false
  else false

/-- `DTG.addVertices`: filter out the symbols already present (each
reported as a recoverable error), then insert a fresh root node with no
outgoing edges for each remaining symbol.  The filter runs to completion
before any insertion, exactly as `filter(...).forEach(...)` does. -/
def addVertices (g : DTG) (vs : List Str) : DTG :=
  if vs.isEmpty then g
  else
    DTG.mk ((vs.filter (fun v => !hasVertex g v)).foldl
      (fun m v => mapSet m v (Node.mk v true [])) g.map)

/-- `DTG.createEdge`: rejected as a no-op when the two symbols coincide,
either vertex is missing, or the edge already exists; otherwise append
`b` to `a`'s outgoing targets and clear `b`'s root flag. -/
def createEdge (g : DTG) (a b : Str) : DTG :=
  if a = b then g
  else if hasVertex g a = false then g
  else if hasVertex g b = false then g
  else if hasEdge g a b = true then g
  else
    match mapGet g.map a, mapGet g.map b with
    | some na, some nb =>
      DTG.mk (mapSet (mapSet g.map a
          (Node.mk na.vertexStart na.isRoot (na.vertexEnds ++ [b])))
        b (Node.mk nb.vertexStart false nb.vertexEnds))
    | _, _ => g

/-- The `vertices.forEach` loop of `DTG.createDaisyChainEdges`: create an
edge for every consecutive pair, left to right, each pair validated
independently. -/
def daisyGo : DTG → List Str → DTG
  | g, a :: b :: rest => daisyGo (createEdge g a b) (b :: rest)
  | g, _ => g

/-- `DTG.createDaisyChainEdges`. -/
def createDaisyChainEdges (g : DTG) (vs : List Str) : DTG :=
  if vs.isEmpty then g else daisyGo g vs

/-- Stable ascending-by-length insertion of a path into a sorted list:
skip every path strictly shorter, stop at the first path of equal or
greater length. -/
def insertByLen (x : List Str) : List (List Str) → List (List Str)
  | [] => [x]
  | y :: ys => if y.length < x.length then y :: insertByLen x ys else x :: y :: ys

/-- The `paths.sort(...)` call of `DTG.getPaths`: the source's comparator
orders by path length (`-1` when strictly shorter), and the repository's
own unit test pins the resulting order for equal lengths to the original
collection order, i.e. a stable ascending sort by length. -/
def sortByLen : List (List Str) → List (List Str)
  | [] => []
  | p :: ps => insertByLen p (sortByLen ps)

/-- `DTG._traverse(startingNode, visitedVertices, collect)`, returning the
collected paths in collection order.  `fuel` bounds the recursion depth
(which the source bounds by the number of vertices, since every step
appends a vertex not yet visited or stops); `none` models a thrown
`TypeError`: when a non-leaf, non-branch node has no outgoing edge
(`vertexEnds[0]` is `undefined`) or an edge target is not in the map, the
source recurses into `undefined` and crashes.  In the branch case the
source pushes a loop endpoint onto the shared `visitedVertices` array, so
the fold threads the current visited list through the siblings. -/
def traverseF (m : List (Str × Node)) : Nat → Node → List Str → Option (List (List Str))
  | 0, _, _ => none
  | fuel + 1, startingNode, visited =>
    if isLeafVertexM m startingNode.vertexStart then
      some [visited]
    else if isBranchVertexM m startingNode.vertexStart then
      (List.foldlM
        (fun (st : List (List Str) × List Str) ve =>
          if st.2.contains ve then
            some (st.1 ++ [st.2 ++ [ve]], st.2 ++ [ve])
          else
            match mapGet m ve with
            | none => none
            | some en =>
              (traverseF m fuel en (st.2 ++ [ve])).map (fun ps => (st.1 ++ ps, st.2)))
        ([], visited) startingNode.vertexEnds).map Prod.fst
    else
      match startingNode.vertexEnds with
      | [] => none
      | ve :: _ =>
        if visited.contains ve then some [visited ++ [ve]]
        else
          match mapGet m ve with
          | none => none
          | some en => traverseF m fuel en (visited ++ [ve])

/-- `DTG.getPaths` with explicit traversal fuel: `[]` on an empty map,
otherwise every root node is traversed depth-first in map insertion order
and the collected paths are sorted ascending by length. -/
def getPathsF (g : DTG) (fuel : Nat) : Option (List (List Str)) :=
  if g.map.isEmpty then some []
  else
    (List.foldlM
      (fun (paths : List (List Str)) (kn : Str × Node) =>
        if kn.2.isRoot then
          (traverseF g.map fuel kn.2 [kn.2.vertexStart]).map (fun ps => paths ++ ps)
        else some paths)
      [] g.map).map sortByLen

/-- `DTG.getPaths`.  A traversal that does not crash visits pairwise
distinct vertices of the map plus at most one final loop duplicate, so its
depth is at most the map size plus one and fuel `g.map.length + 2` is
sufficient: `none` models a thrown `TypeError`. -/
def getPaths (g : DTG) : Option (List (List Str)) :=
  getPathsF g (g.map.length + 2)

/-- `DTG.getLoopCount`: among the collected paths, count those whose
`Set`-deduplication is shorter than the path itself. -/
def getLoopCount (g : DTG) : Option Nat :=
  (getPaths g).map (fun paths =>
    paths.foldl
      (fun count vv => if (jsSetDedup vv).length ≠ vv.length then count + 1 else count)
      0)

/-- The graph `extractAlphabetChars` builds: all unique characters as
vertices, then daisy-chain edges for every extracted ordered chain.  The
`none` arm is unreachable for inputs whose chain extraction terminates. -/
def buildDtg (words : List Str) : DTG :=
  match getOrderedCharSet words with
  | none => DTG.mk []
  | some orderedChars =>
    orderedChars.foldl createDaisyChainEdges
      (addVertices (DTG.mk []) (getUniqueCharSet words))

/-- `extractAlphabetChars(words)`.  The outer `Option` is abortive
termination (a stack overflow inside `getOrderedCharSet`, a `TypeError`
inside `getPaths`, or the spread of an `undefined` candidate when the
graph is fully connected); the inner `Option` is the returned value, with
`none` standing for JS `undefined` (the result of `pop()` on an empty
path list, returned after the short-circuited connectedness warning).
The loop-count and coverage checks of the source only emit warnings and
never change the returned value. -/
def extractAlphabetChars (words : List Str) : Option (Option (List Str)) :=
  if words.isEmpty then some (some [])
  else
    match getOrderedCharSet words with
    | none => none
    | some _ =>
      let dtg := buildDtg words
      match getPaths dtg with
      | none => none
      | some paths =>
        match paths.getLast? with
        | some alphabetChars => some (some alphabetChars)
        | none => if isFullyConnected dtg then none else some none

/-! ## Operation sequences over a graph

The mutating public surface of the graph: `addVertices`, `createEdge` and
`createDaisyChainEdges`.  A caller's interaction is a list of these. -/

/-- One public mutating call on a `DTG`. -/
inductive GraphOp where
  | addV (vs : List Str)
  | edge (a b : Str)
  | chain (vs : List Str)
deriving DecidableEq

/-- Apply one public mutating call. -/
def applyOp (g : DTG) : GraphOp → DTG
  | GraphOp.addV vs => addVertices g vs
  | GraphOp.edge a b => createEdge g a b
  | GraphOp.chain vs => createDaisyChainEdges g vs

/-- Run a sequence of public mutating calls, left to right. -/
def runOps (g : DTG) (ops : List GraphOp) : DTG := ops.foldl applyOp g

/-- The vertex symbols of the graph, in map insertion order. -/
def keys (g : DTG) : List Str := g.map.map Prod.fst

/-- No node lists its own key among its outgoing edge targets; this holds
for every graph built by the public calls and makes `hasEdge x x` false. -/
def SelfFree (g : DTG) : Prop :=
  ∀ k n, mapGet g.map k = some n → k ∉ n.vertexEnds

/-! ## Concrete inputs from the claims and the repository's unit tests -/

/-- The worked example word list of the repository. -/
def exWords : List Str := ["bca", "aaa", "acb", "ddb", "dca"].map String.toList

/-- The chains extracted from the worked example. -/
def exChains : List (List Str) :=
  [["b", "a", "d"], ["a", "c"], ["d", "c"]].map (fun p => p.map String.toList)

/-- A word list whose graph has an isolated vertex (`b` is a root with no
outgoing edges, and so is `a`). -/
def abWords : List Str := ["ab"].map String.toList

/-- A word list whose chains (`a→b` and `b→a`) leave the graph without
any root vertex. -/
def noRootWords : List Str := ["ab", "aa", "ba", "bb"].map String.toList

/-- A word list repeating one word: chain extraction never terminates. -/
def dupWords : List Str := ["aa", "aa"].map String.toList

/-- A word list where one word is a proper prefix of its group sibling. -/
def prefixWords : List Str := ["ab", "a"].map String.toList

/-- A two-vertex graph with edges both ways: no vertex remains a root. -/
def gNoRoot : DTG :=
  createEdge
    (createEdge (addVertices (DTG.mk []) (["a", "b"].map String.toList))
      "a".toList "b".toList)
    "b".toList "a".toList

/-- The twelve-vertex graph of the `getPaths` unit test. -/
def g7 : DTG :=
  let g0 := addVertices (DTG.mk [])
    (["a", "b", "c", "d", "e", "f", "g", "h", "i", "x", "y", "z"].map String.toList)
  let g1 := createDaisyChainEdges g0 (["a", "b", "e", "f"].map String.toList)
  let g2 := createEdge g1 "d".toList "g".toList
  let g3 := createEdge g2 "d".toList "x".toList
  let g4 := createEdge g3 "x".toList "y".toList
  let g5 := createEdge g4 "x".toList "z".toList
  let g6 := createDaisyChainEdges g5 (["b", "c", "d", "e"].map String.toList)
  let g7 := createEdge g6 "f".toList "g".toList
  createEdge g7 "h".toList "i".toList

/-- The six paths the `getPaths` unit test expects, ascending by length. -/
def g7Paths : List (List Str) :=
  [["h", "i"],
   ["a", "b", "e", "f", "g"],
   ["a", "b", "c", "d", "g"],
   ["a", "b", "c", "d", "x", "y"],
   ["a", "b", "c", "d", "x", "z"],
   ["a", "b", "c", "d", "e", "f", "g"]].map (fun p => p.map String.toList)

/-- Chain `a→b→c→d`, loop free. -/
def g9a : DTG :=
  createDaisyChainEdges (addVertices (DTG.mk []) (["a", "b", "c", "d"].map String.toList))
    (["a", "b", "c", "d"].map String.toList)

/-- Chain `a→b→c→d` plus the loop-closing edge `d→b`. -/
def g9b : DTG := createEdge g9a "d".toList "b".toList

/-- Two disjoint chains `a→b→c` and `d→e→f`. -/
def g8a : DTG :=
  let g0 := addVertices (DTG.mk []) (["a", "b", "c", "d", "e", "f"].map String.toList)
  let g1 := createDaisyChainEdges g0 (["a", "b", "c"].map String.toList)
  createDaisyChainEdges g1 (["d", "e", "f"].map String.toList)

/-- The two chains joined by the edge `c→d`. -/
def g8b : DTG := createEdge g8a "c".toList "d".toList

/-- Vertices `a`, `b`: the witness base graph. -/
def gW : DTG := addVertices (DTG.mk []) (["a", "b"].map String.toList)

/-- Vertices `a`, `b` and the edge `a→b`. -/
def gW2 : DTG := createEdge gW "a".toList "b".toList

/-! ## Helper lemmas -/

theorem insertByLen_head_cases (x : List Str) (l : List (List Str)) :
    (insertByLen x l).head? = some x ∨ (insertByLen x l).head? = l.head? := by
  cases l with
  | nil => left; rfl
  | cons y ys =>
    by_cases h : y.length < x.length
    · right; simp [insertByLen, h]
    · left; simp [insertByLen, h]

theorem chain'_insertByLen (x : List Str) (l : List (List Str))
    (h : List.Chain' (fun p q => p.length ≤ q.length) l) :
    List.Chain' (fun p q => p.length ≤ q.length) (insertByLen x l) := by
  induction l with
  | nil => simp [insertByLen]
  | cons y ys ih =>
    rw [List.chain'_cons'] at h
    by_cases hlt : y.length < x.length
    · simp only [insertByLen, hlt, if_true]
      rw [List.chain'_cons']
      refine ⟨?_, ih h.2⟩
      intro z hz
      rcases insertByLen_head_cases x ys with hh | hh
      · rw [hh] at hz
        simp only [Option.mem_def, Option.some_inj] at hz
        subst hz
        exact Nat.le_of_lt hlt
      · rw [hh] at hz
        exact h.1 z hz
    · simp only [insertByLen, hlt, if_false]
      rw [List.chain'_cons]
      exact ⟨Nat.le_of_not_lt hlt, List.chain'_cons'.mpr h⟩

theorem chain'_sortByLen (l : List (List Str)) :
    List.Chain' (fun p q => p.length ≤ q.length) (sortByLen l) := by
  induction l with
  | nil => simp [sortByLen]
  | cons p ps ih => exact chain'_insertByLen p (sortByLen ps) ih

theorem foldl_count {α : Type} (p : α → Prop) [DecidablePred p] (l : List α) :
    ∀ n : Nat,
      l.foldl (fun c x => if p x then c + 1 else c) n =
        n + (l.filter (fun x => decide (p x))).length := by
  induction l with
  | nil => intro n; simp
  | cons a l ih =>
    intro n
    by_cases h : p a
    · simp [h, ih]
      omega
    · simp [h, ih]

theorem jsSetDedupAux_length_le (l : List Str) :
    ∀ seen, (jsSetDedupAux seen l).length ≤ l.length := by
  induction l with
  | nil => intro seen; simp [jsSetDedupAux]
  | cons a rest ih =>
    intro seen
    by_cases h : seen.contains a
    · simp only [jsSetDedupAux, h, if_true]
      exact Nat.le_succ_of_le (ih seen)
    · simp only [jsSetDedupAux, h, if_false, List.length_cons]
      exact Nat.succ_le_succ (ih _)

theorem jsSetDedupAux_length_eq_iff (l : List Str) :
    ∀ seen, (jsSetDedupAux seen l).length = l.length ↔
      (l.Nodup ∧ ∀ a ∈ l, a ∉ seen) := by
  induction l with
  | nil => intro seen; simp [jsSetDedupAux]
  | cons a rest ih =>
    intro seen
    rw [jsSetDedupAux]
    by_cases h : seen.contains a
    · have hmem : a ∈ seen := by simpa [List.contains, List.elem_eq_mem] using h
      rw [if_pos h]
      constructor
      · intro hlen
        exfalso
        have := jsSetDedupAux_length_le rest seen
        simp only [List.length_cons] at hlen
        omega
      · rintro ⟨-, hni⟩
        exact absurd hmem (hni a (List.mem_cons_self a rest))
    · have hnmem : a ∉ seen := by simpa [List.contains, List.elem_eq_mem] using h
      rw [if_neg h]
      have hlen : (a :: jsSetDedupAux (seen ++ [a]) rest).length =
          (jsSetDedupAux (seen ++ [a]) rest).length + 1 := rfl
      rw [hlen, List.length_cons]
      have hcan : (jsSetDedupAux (seen ++ [a]) rest).length + 1 = rest.length + 1 ↔
          (jsSetDedupAux (seen ++ [a]) rest).length = rest.length := by omega
      rw [hcan, ih (seen ++ [a])]
      constructor
      · rintro ⟨hnd, hall⟩
        refine ⟨List.nodup_cons.mpr ⟨?_, hnd⟩, ?_⟩
        · intro hmem
          have := hall a hmem
          simp [List.mem_append] at this
        · intro b hb
          rcases List.mem_cons.mp hb with rfl | hb
          · exact hnmem
          · intro hbs
            exact (hall b hb) (List.mem_append.mpr (Or.inl hbs))
      · rintro ⟨hnd, hall⟩
        have hna : a ∉ rest := (List.nodup_cons.mp hnd).1
        refine ⟨(List.nodup_cons.mp hnd).2, ?_⟩
        intro b hb hmem
        rcases List.mem_append.mp hmem with hbs | hba
        · exact (hall b (List.mem_cons_of_mem a hb)) hbs
        · rw [List.mem_singleton.mp hba] at hb
          exact hna hb

theorem jsSetDedup_length_eq_iff (l : List Str) :
    (jsSetDedup l).length = l.length ↔ l.Nodup := by
  rw [jsSetDedup, jsSetDedupAux_length_eq_iff]
  simp

/-- Every word stored in a bucket of `insertGroup` has the bucket's key as
its one-character prefix, provided this held before and the inserted word
matches its key. -/
theorem insertGroup_keyed (k w : Str) (hw : w.take 1 = k) :
    ∀ m, (∀ p ∈ m, ∀ x ∈ p.2, x.take 1 = p.1) →
      ∀ p ∈ insertGroup m k w, ∀ x ∈ p.2, x.take 1 = p.1 := by
  intro m
  induction m with
  | nil =>
    intro _ p hp x hx
    simp only [insertGroup, List.mem_singleton] at hp
    subst hp
    simp only [List.mem_singleton] at hx
    subst hx
    exact hw
  | cons q rest ih =>
    intro hm p hp x hx
    obtain ⟨k', ws⟩ := q
    simp only [insertGroup] at hp
    by_cases hk : k' = k
    · rw [if_pos hk] at hp
      rcases List.mem_cons.mp hp with heq | hp2
      · subst heq
        rcases List.mem_append.mp hx with hx2 | hx2
        · have h3 := hm (k', ws) (List.mem_cons_self _ _) x hx2
          exact h3
        · rw [List.mem_singleton.mp hx2]
          exact hw.trans hk.symm
      · exact hm p (List.mem_cons_of_mem _ hp2) x hx
    · rw [if_neg hk] at hp
      rcases List.mem_cons.mp hp with heq | hp2
      · subst heq
        exact hm (k', ws) (List.mem_cons_self _ _) x hx
      · exact ih (fun q hq => hm q (List.mem_cons_of_mem _ hq)) p hp2 x hx

/-- Every bucket of `groupByFirst` holds only words whose one-character
prefix is the bucket's key. -/
theorem groupByFirst_keyed (words : List Str) :
    ∀ p ∈ groupByFirst words, ∀ x ∈ p.2, x.take 1 = p.1 := by
  have main : ∀ (l : List Str) (m : List (Str × List Str)),
      (∀ p ∈ m, ∀ x ∈ p.2, x.take 1 = p.1) →
      ∀ p ∈ l.foldl (fun m w => insertGroup m (w.take 1) w) m, ∀ x ∈ p.2, x.take 1 = p.1 := by
    intro l
    induction l with
    | nil => intro m hm; exact hm
    | cons w ws ih =>
      intro m hm
      exact ih _ (insertGroup_keyed (w.take 1) w rfl m hm)
  exact main words [] (by simp)

/-- `insertGroup` turns buckets that are sublists of `l` into buckets that
are sublists of `l ++ [w]`. -/
theorem insertGroup_sub (k w : Str) :
    ∀ (m : List (Str × List Str)) (l : List Str), (∀ p ∈ m, p.2.Sublist l) →
      ∀ p ∈ insertGroup m k w, p.2.Sublist (l ++ [w]) := by
  intro m
  induction m with
  | nil =>
    intro l _ p hp
    simp only [insertGroup, List.mem_singleton] at hp
    subst hp
    exact List.sublist_append_right l [w]
  | cons q rest ih =>
    intro l hm p hp
    obtain ⟨k', ws⟩ := q
    simp only [insertGroup] at hp
    by_cases hk : k' = k
    · rw [if_pos hk] at hp
      rcases List.mem_cons.mp hp with heq | hp2
      · subst heq
        exact List.Sublist.append (hm (k', ws) (List.mem_cons_self _ _)) (List.Sublist.refl [w])
      · exact (hm p (List.mem_cons_of_mem _ hp2)).trans (List.sublist_append_left l [w])
    · rw [if_neg hk] at hp
      rcases List.mem_cons.mp hp with heq | hp2
      · subst heq
        exact (hm (k', ws) (List.mem_cons_self _ _)).trans (List.sublist_append_left l [w])
      · exact ih l (fun q hq => hm q (List.mem_cons_of_mem _ hq)) p hp2

/-- Every bucket of `groupByFirst` is a sublist of the grouped word list. -/
theorem groupByFirst_sub (words : List Str) :
    ∀ p ∈ groupByFirst words, p.2.Sublist words := by
  have main : ∀ (rest : List Str) (m : List (Str × List Str)) (l : List Str),
      (∀ p ∈ m, p.2.Sublist l) →
      ∀ p ∈ rest.foldl (fun m w => insertGroup m (w.take 1) w) m, p.2.Sublist (l ++ rest) := by
    intro rest
    induction rest with
    | nil => intro m l hm; simpa using hm
    | cons w ws ih =>
      intro m l hm p hp
      have step := ih (insertGroup m (w.take 1) w) (l ++ [w]) (insertGroup_sub (w.take 1) w m l hm)
      have hres := step p hp
      simpa [List.append_assoc] using hres
  have hmain := main words [] []
  simpa using hmain (by simp)

/-- An `Option`-monad left fold succeeds when every step succeeds. -/
theorem foldlM_option_isSome {α β : Type} (f : β → α → Option β) :
    ∀ (l : List α) (b : β), (∀ a ∈ l, ∀ c, (f c a).isSome = true) →
      (l.foldlM f b).isSome = true := by
  intro l
  induction l with
  | nil => intro b _; rfl
  | cons a rest ih =>
    intro b h
    rw [List.foldlM_cons]
    obtain ⟨c, hc⟩ := Option.isSome_iff_exists.mp (h a (List.mem_cons_self a rest) b)
    rw [hc]
    simpa using ih c (fun x hx d => h x (List.mem_cons_of_mem a hx) d)

/-- The accumulator is a lower bound of the `maxWordLen` fold. -/
theorem maxWordLen_acc_le (l : List Str) :
    ∀ acc, acc ≤ l.foldl (fun acc w => max acc w.length) acc := by
  induction l with
  | nil => intro acc; simp
  | cons w rest ih =>
    intro acc
    exact le_trans (Nat.le_max_left acc w.length) (ih (max acc w.length))

/-- Every member's length is bounded by the `maxWordLen` fold. -/
theorem length_le_maxWordLen (words : List Str) (w : Str) (h : w ∈ words) :
    w.length ≤ maxWordLen words := by
  rw [maxWordLen]
  have main : ∀ (l : List Str) (acc : Nat), w ∈ l →
      w.length ≤ l.foldl (fun acc w => max acc w.length) acc := by
    intro l
    induction l with
    | nil => intro acc hmem; cases hmem
    | cons x rest ih =>
      intro acc hmem
      rcases List.mem_cons.mp hmem with rfl | hmem
      · exact le_trans (Nat.le_max_right acc w.length) (maxWordLen_acc_le rest _)
      · exact ih _ hmem
  exact main words 0 h


/-- One-step unfolding of `getOrderedCharSetF` at positive fuel. -/
theorem getOrderedCharSetF_succ (fuel : Nat) (words : List Str) :
    getOrderedCharSetF (fuel + 1) words =
      (if words.isEmpty then some []
       else
        match (((groupByFirst words).map Prod.snd).filter
            (fun ws => 1 < ws.length)).foldlM
            (fun acc ws =>
              (getOrderedCharSetF fuel (ws.map (fun w => w.drop 1))).map
                (fun r => acc ++ r))
            [] with
        | none => none
        | some rest =>
          some ((((groupByFirst words).map Prod.fst) :: rest).filter
            (fun c => 1 < c.length))) := rfl

theorem getOrderedCharSetF_dup_none :
    ∀ (fuel : Nat) (s : Str), getOrderedCharSetF fuel [s, s] = none := by
  intro fuel
  induction fuel with
  | zero => intro s; rfl
  | succ fuel ih =>
    intro s
    have hg : groupByFirst [s, s] = [(s.take 1, [s, s])] := by
      simp [groupByFirst, insertGroup]
    rw [getOrderedCharSetF_succ, hg]
    have hnone := ih (s.drop 1)
    rw [List.drop_one] at hnone
    simp [hnone]

theorem getOrderedCharSetF_total :
    ∀ (fuel : Nat) (words : List Str), words.Nodup →
      (∀ w ∈ words, w.length < fuel) →
      (getOrderedCharSetF (fuel + 1) words).isSome = true := by
  intro fuel
  induction fuel with
  | zero =>
    intro words hnd hlen
    cases words with
    | nil => rfl
    | cons w rest => exact absurd (hlen w (List.mem_cons_self w rest)) (by omega)
  | succ fuel ih =>
    intro words hnd hlen
    rw [getOrderedCharSetF_succ]
    by_cases hE : words.isEmpty
    · simp [hE]
    · have hfold : ((((groupByFirst words).map Prod.snd).filter
          (fun ws => decide (1 < ws.length))).foldlM
            (fun acc ws =>
              (getOrderedCharSetF (fuel + 1) (ws.map (fun w => w.drop 1))).map
                (fun r => acc ++ r)) ([] : List (List Str))).isSome = true := by
        apply foldlM_option_isSome
        intro ws hws c
        have hmem := (List.mem_filter.mp hws).1
        have hbig : 1 < ws.length := by
          have := (List.mem_filter.mp hws).2
          simpa using this
        obtain ⟨p, hp, hpsnd⟩ := List.mem_map.mp hmem
        obtain ⟨k, ws2⟩ := p
        simp only at hpsnd
        have hp2 : (k, ws) ∈ groupByFirst words := by rw [← hpsnd]; exact hp
        have hsub : ws.Sublist words := groupByFirst_sub words (k, ws) hp2
        have hwsnd : ws.Nodup := List.Nodup.sublist hsub hnd
        have hkeyed : ∀ x ∈ ws, x.take 1 = k := groupByFirst_keyed words (k, ws) hp2
        have hne : ∀ x ∈ ws, x ≠ [] := by
          intro x hx hxnil
          have hknil : k = [] := by
            have := hkeyed x hx
            rw [hxnil] at this
            simpa using this.symm
          have hall : ∀ y ∈ ws, y = [] := by
            intro y hy
            have := hkeyed y hy
            rw [hknil] at this
            rcases List.take_eq_nil_iff.mp this with h1 | h1
            · omega
            · exact h1
          match ws, hbig, hwsnd, hall with
          | y1 :: y2 :: t, _, hwsnd, hall =>
            have h1 := hall y1 (List.mem_cons_self _ _)
            have h2 := hall y2 (List.mem_cons_of_mem _ (List.mem_cons_self _ _))
            have hni : y1 ∉ y2 :: t := (List.nodup_cons.mp hwsnd).1
            exact hni (by rw [h1, h2]; exact List.mem_cons_self _ _)
        have htails_nd : (ws.map (fun w => w.drop 1)).Nodup := by
          apply List.Nodup.map_on ?_ hwsnd
          intro x hx y hy hxy
          have hxk := hkeyed x hx
          have hyk := hkeyed y hy
          calc x = x.take 1 ++ x.drop 1 := (List.take_append_drop 1 x).symm
            _ = y.take 1 ++ y.drop 1 := by rw [hxk, hyk, hxy]
            _ = y := List.take_append_drop 1 y
        have htails_len : ∀ t ∈ ws.map (fun w => w.drop 1), t.length < fuel := by
          intro t ht
          obtain ⟨x, hx, hxt⟩ := List.mem_map.mp ht
          subst hxt
          have hxw : x ∈ words := hsub.subset hx
          have h1 : x.length < fuel + 1 := hlen x hxw
          have h2 : x ≠ [] := hne x hx
          have h3 : 0 < x.length := List.length_pos.mpr h2
          simp only [List.length_drop]
          omega
        have hrec := ih (ws.map (fun w => w.drop 1)) htails_nd htails_len
        obtain ⟨r, hr⟩ := Option.isSome_iff_exists.mp hrec
        rw [hr]
        rfl
      obtain ⟨rest, hrest⟩ := Option.isSome_iff_exists.mp hfold
      rw [if_neg hE]
      rw [hrest]
      rfl

/-- `getOrderedCharSet` terminates (returns a value rather than
overflowing the stack) on every duplicate-free word list. -/
theorem getOrderedCharSet_total (words : List Str) (h : words.Nodup) :
    (getOrderedCharSet words).isSome = true := by
  rw [getOrderedCharSet]
  have hsplit : maxWordLen words + 2 = (maxWordLen words + 1) + 1 := rfl
  rw [hsplit]
  apply getOrderedCharSetF_total (maxWordLen words + 1) words h
  intro w hw
  have := length_le_maxWordLen words w hw
  omega

/-! ## Map and graph-operation lemmas -/

theorem mapGet_mapSet_self (m : List (Str × Node)) (k : Str) (n : Node) :
    mapGet (mapSet m k n) k = some n := by
  induction m with
  | nil => simp [mapSet, mapGet]
  | cons p rest ih =>
    obtain ⟨k', n'⟩ := p
    by_cases h : k' = k
    · simp [mapSet, mapGet, h]
    · simp [mapSet, mapGet, h, ih]

theorem mapGet_mapSet_ne (m : List (Str × Node)) (k : Str) (n : Node) (v : Str)
    (h : k ≠ v) : mapGet (mapSet m k n) v = mapGet m v := by
  induction m with
  | nil => simp [mapSet, mapGet, h]
  | cons p rest ih =>
    obtain ⟨k', n'⟩ := p
    by_cases hk : k' = k
    · subst hk
      simp [mapSet, mapGet, h]
    · simp only [mapSet, hk, if_false]
      by_cases hv : k' = v
      · simp [mapGet, hv]
      · simp [mapGet, hv, ih]

theorem mapGet_isSome_iff_mem (m : List (Str × Node)) (v : Str) :
    (mapGet m v).isSome = true ↔ v ∈ m.map Prod.fst := by
  induction m with
  | nil => simp [mapGet]
  | cons p rest ih =>
    obtain ⟨k', n'⟩ := p
    by_cases h : k' = v
    · subst h
      simp only [mapGet, if_pos rfl, Option.isSome_some, List.map_cons, List.mem_cons]
      exact ⟨fun _ => Or.inl trivial, fun _ => rfl⟩
    · simp only [mapGet, if_neg h, List.map_cons, List.mem_cons]
      rw [ih]
      constructor
      · intro hm
        exact Or.inr hm
      · rintro (rfl | hm)
        · exact absurd rfl h
        · exact hm

theorem mapSet_keys_of_mem (m : List (Str × Node)) (k : Str) (n : Node)
    (h : (mapGet m k).isSome = true) :
    (mapSet m k n).map Prod.fst = m.map Prod.fst := by
  induction m with
  | nil => simp [mapGet] at h
  | cons p rest ih =>
    obtain ⟨k', n'⟩ := p
    by_cases hk : k' = k
    · simp [mapSet, hk]
    · simp only [mapGet, hk, if_false] at h
      simp [mapSet, hk, ih h]

theorem mapSet_keys_of_not_mem (m : List (Str × Node)) (k : Str) (n : Node)
    (h : mapGet m k = none) :
    (mapSet m k n).map Prod.fst = m.map Prod.fst ++ [k] := by
  induction m with
  | nil => simp [mapSet]
  | cons p rest ih =>
    obtain ⟨k', n'⟩ := p
    by_cases hk : k' = k
    · simp [mapGet, hk] at h
    · simp only [mapGet, hk, if_false] at h
      simp [mapSet, hk, ih h]

/-- A generic preservation principle for folds. -/
theorem foldl_preserve {α β : Type} (P : β → Prop) (f : β → α → β)
    (hstep : ∀ b a, P b → P (f b a)) :
    ∀ (l : List α) (b : β), P b → P (l.foldl f b) := by
  intro l
  induction l with
  | nil => intro b h; exact h
  | cons a rest ih => intro b h; exact ih (f b a) (hstep b a h)

/-- A preservation principle for the daisy-chain loop. -/
theorem daisyGo_preserve (P : DTG → Prop)
    (hstep : ∀ g a b, P g → P (createEdge g a b)) :
    ∀ (l : List Str) (g : DTG), P g → P (daisyGo g l) := by
  intro l
  induction l with
  | nil => intro g h; exact h
  | cons a rest ih =>
    intro g h
    cases rest with
    | nil => exact h
    | cons b t =>
      rw [daisyGo]
      exact ih (createEdge g a b) (hstep g a b h)

/-- A preservation principle for every public mutating call. -/
theorem applyOp_preserve (P : DTG → Prop)
    (hAdd : ∀ g vs, P g → P (addVertices g vs))
    (hEdge : ∀ g a b, P g → P (createEdge g a b)) :
    ∀ (g : DTG) (op : GraphOp), P g → P (applyOp g op) := by
  intro g op h
  cases op with
  | addV vs => exact hAdd g vs h
  | edge a b => exact hEdge g a b h
  | chain vs =>
    rw [applyOp, createDaisyChainEdges]
    by_cases hE : vs.isEmpty
    · rw [if_pos hE]; exact h
    · rw [if_neg hE]; exact daisyGo_preserve P hEdge vs g h

/-- A preservation principle for sequences of public mutating calls. -/
theorem runOps_preserve (P : DTG → Prop)
    (hAdd : ∀ g vs, P g → P (addVertices g vs))
    (hEdge : ∀ g a b, P g → P (createEdge g a b)) :
    ∀ (ops : List GraphOp) (g : DTG), P g → P (runOps g ops) := by
  intro ops
  induction ops with
  | nil => intro g h; exact h
  | cons op rest ih =>
    intro g h
    exact ih (applyOp g op) (applyOp_preserve P hAdd hEdge g op h)

/-- `createEdge` either rejects (graph unchanged) or appends the new edge
target and clears the ending vertex's root flag. -/
theorem createEdge_cases (g : DTG) (a b : Str) :
    createEdge g a b = g ∨
      ∃ na nb, a ≠ b ∧ mapGet g.map a = some na ∧ mapGet g.map b = some nb ∧
        hasEdge g a b = false ∧
        createEdge g a b = DTG.mk (mapSet (mapSet g.map a
            (Node.mk na.vertexStart na.isRoot (na.vertexEnds ++ [b])))
          b (Node.mk nb.vertexStart false nb.vertexEnds)) := by
  rw [createEdge]
  split_ifs with h1 h2 h3 h4
  · left; rfl
  · left; rfl
  · left; rfl
  · left; rfl
  · right
    have h2' : hasVertex g a = true := by
      revert h2; cases hasVertex g a <;> simp
    have h3' : hasVertex g b = true := by
      revert h3; cases hasVertex g b <;> simp
    have h4' : hasEdge g a b = false := by
      revert h4; cases hasEdge g a b <;> simp
    obtain ⟨na, hna⟩ := Option.isSome_iff_exists.mp h2'
    obtain ⟨nb, hnb⟩ := Option.isSome_iff_exists.mp h3'
    refine ⟨na, nb, h1, hna, hnb, h4', ?_⟩
    rw [hna, hnb]

theorem contains_true_iff (l : List Str) (x : Str) : l.contains x = true ↔ x ∈ l := by
  simp [List.contains, List.elem_eq_mem]

theorem mapGet_foldl_mapSet_ne (f : Str → Node) :
    ∀ (l : List Str) (m : List (Str × Node)) (v : Str), (∀ w ∈ l, w ≠ v) →
      mapGet (l.foldl (fun m w => mapSet m w (f w)) m) v = mapGet m v := by
  intro l
  induction l with
  | nil => intro m v _; rfl
  | cons w rest ih =>
    intro m v h
    rw [List.foldl_cons]
    rw [ih (mapSet m w (f w)) v (fun x hx => h x (List.mem_cons_of_mem w hx))]
    exact mapGet_mapSet_ne m w (f w) v (h w (List.mem_cons_self w rest))

theorem addVertices_mapGet_of_mem (g : DTG) (vs : List Str) (v : Str)
    (h : hasVertex g v = true) : mapGet (addVertices g vs).map v = mapGet g.map v := by
  rw [addVertices]
  by_cases hE : vs.isEmpty
  · rw [if_pos hE]
  · rw [if_neg hE]
    apply mapGet_foldl_mapSet_ne
    intro w hw heq
    subst heq
    have hfw := (List.mem_filter.mp hw).2
    rw [hasVertex] at h
    simp only [Bool.not_eq_true'] at hfw
    rw [hasVertex] at hfw
    rw [h] at hfw
    simp at hfw

theorem addVertices_hasVertex (g : DTG) (vs : List Str) (v : Str)
    (h : hasVertex g v = true) : hasVertex (addVertices g vs) v = true := by
  rw [hasVertex, addVertices_mapGet_of_mem g vs v h]
  exact h

theorem createEdge_hasVertex (g : DTG) (a b v : Str)
    (h : hasVertex g v = true) : hasVertex (createEdge g a b) v = true := by
  rcases createEdge_cases g a b with heq | ⟨na, nb, hne, hna, hnb, hnedge, heq⟩
  · rw [heq]; exact h
  · rw [heq, hasVertex]
    by_cases hvb : b = v
    · subst hvb
      rw [mapGet_mapSet_self]
      rfl
    · rw [mapGet_mapSet_ne _ _ _ _ hvb]
      by_cases hva : a = v
      · subst hva
        rw [mapGet_mapSet_self]
        rfl
      · rw [mapGet_mapSet_ne _ _ _ _ hva]
        exact h

theorem createEdge_isRootFalse (g : DTG) (a b v : Str)
    (h : isRootVertex g v = false) : isRootVertex (createEdge g a b) v = false := by
  rcases createEdge_cases g a b with heq | ⟨na, nb, hne, hna, hnb, hnedge, heq⟩
  · rw [heq]; exact h
  · rw [heq, isRootVertex]
    by_cases hvb : b = v
    · subst hvb
      rw [mapGet_mapSet_self]
    · rw [mapGet_mapSet_ne _ _ _ _ hvb]
      by_cases hva : a = v
      · subst hva
        rw [mapGet_mapSet_self]
        rw [isRootVertex, hna] at h
        exact h
      · rw [mapGet_mapSet_ne _ _ _ _ hva]
        rw [isRootVertex] at h
        exact h

theorem addVertices_isRootFalse (g : DTG) (vs : List Str) (v : Str)
    (hv : hasVertex g v = true) (h : isRootVertex g v = false) :
    isRootVertex (addVertices g vs) v = false := by
  rw [isRootVertex, addVertices_mapGet_of_mem g vs v hv]
  rw [isRootVertex] at h
  exact h

theorem hasEdge_elim (g : DTG) (a b : Str) (h : hasEdge g a b = true) :
    hasVertex g a = true ∧ hasVertex g b = true ∧
      ∃ n, mapGet g.map a = some n ∧ n.vertexEnds.contains b = true := by
  rw [hasEdge] at h
  by_cases hc : (hasVertex g a && hasVertex g b) = true
  · rw [if_pos hc] at h
    cases hget : mapGet g.map a with
    | none => rw [hget] at h; exact absurd h (by simp)
    | some n =>
      rw [hget] at h
      obtain ⟨h1, h2⟩ : hasVertex g a = true ∧ hasVertex g b = true := by simpa using hc
      exact ⟨h1, h2, n, rfl, h⟩
  · rw [if_neg hc] at h
    exact absurd h (by simp)

theorem hasEdge_intro (g : DTG) (a b : Str) (n : Node)
    (ha : hasVertex g a = true) (hb : hasVertex g b = true)
    (hget : mapGet g.map a = some n) (hc : n.vertexEnds.contains b = true) :
    hasEdge g a b = true := by
  rw [hasEdge, if_pos (by rw [ha, hb]; rfl), hget]
  exact hc

theorem createEdge_hasEdge (g : DTG) (a b x y : Str)
    (h : hasEdge g x y = true) : hasEdge (createEdge g a b) x y = true := by
  rcases createEdge_cases g a b with heq | ⟨na, nb, hne, hna, hnb, hnedge, heq⟩
  · rw [heq]; exact h
  · obtain ⟨hx, hy, n, hget, hcont⟩ := hasEdge_elim g x y h
    have hx' := createEdge_hasVertex g a b x hx
    have hy' := createEdge_hasVertex g a b y hy
    by_cases hxb : b = x
    · subst hxb
      have hn : n = nb := by rw [hget] at hnb; exact Option.some_inj.mp hnb
      apply hasEdge_intro _ _ _ (Node.mk nb.vertexStart false nb.vertexEnds) hx' hy'
      · rw [heq]
        exact mapGet_mapSet_self _ _ _
      · subst hn
        exact hcont
    · by_cases hxa : a = x
      · subst hxa
        have hn : n = na := by rw [hget] at hna; exact Option.some_inj.mp hna
        apply hasEdge_intro _ _ _
          (Node.mk na.vertexStart na.isRoot (na.vertexEnds ++ [b])) hx' hy'
        · rw [heq]
          rw [mapGet_mapSet_ne _ _ _ _ (fun hh => hne hh.symm)]
          exact mapGet_mapSet_self _ _ _
        · rw [contains_true_iff] at hcont ⊢
          subst hn
          exact List.mem_append.mpr (Or.inl hcont)
      · apply hasEdge_intro _ _ _ n hx' hy' ?_ hcont
        rw [heq]
        rw [mapGet_mapSet_ne _ _ _ _ hxb, mapGet_mapSet_ne _ _ _ _ hxa]
        exact hget

theorem addVertices_hasEdge (g : DTG) (vs : List Str) (x y : Str)
    (h : hasEdge g x y = true) : hasEdge (addVertices g vs) x y = true := by
  obtain ⟨hx, hy, n, hget, hcont⟩ := hasEdge_elim g x y h
  apply hasEdge_intro _ _ _ n (addVertices_hasVertex g vs x hx)
    (addVertices_hasVertex g vs y hy) ?_ hcont
  rw [addVertices_mapGet_of_mem g vs x hx]
  exact hget

theorem selfFree_mapSet (m : List (Str × Node)) (k : Str) (n : Node)
    (hm : ∀ k' n', mapGet m k' = some n' → k' ∉ n'.vertexEnds)
    (hn : k ∉ n.vertexEnds) :
    ∀ k' n', mapGet (mapSet m k n) k' = some n' → k' ∉ n'.vertexEnds := by
  intro k' n' hget
  by_cases hk : k = k'
  · subst hk
    rw [mapGet_mapSet_self] at hget
    rw [← Option.some_inj.mp hget]
    exact hn
  · rw [mapGet_mapSet_ne _ _ _ _ hk] at hget
    exact hm k' n' hget

theorem selfFree_addVertices (g : DTG) (vs : List Str) (h : SelfFree g) :
    SelfFree (addVertices g vs) := by
  rw [addVertices]
  by_cases hE : vs.isEmpty
  · rw [if_pos hE]; exact h
  · rw [if_neg hE]
    exact foldl_preserve
      (fun (m : List (Str × Node)) => ∀ k n, mapGet m k = some n → k ∉ n.vertexEnds)
      (fun m v => mapSet m v (Node.mk v true []))
      (fun m w hm => selfFree_mapSet m w _ hm (by simp))
      (vs.filter (fun v => !hasVertex g v)) g.map h

theorem selfFree_createEdge (g : DTG) (a b : Str) (h : SelfFree g) :
    SelfFree (createEdge g a b) := by
  rcases createEdge_cases g a b with heq | ⟨na, nb, hne, hna, hnb, hnedge, heq⟩
  · rw [heq]; exact h
  · rw [heq]
    intro k n hget
    by_cases hkb : b = k
    · subst hkb
      rw [mapGet_mapSet_self] at hget
      rw [← Option.some_inj.mp hget]
      exact h b nb hnb
    · rw [mapGet_mapSet_ne _ _ _ _ hkb] at hget
      by_cases hka : a = k
      · subst hka
        rw [mapGet_mapSet_self] at hget
        rw [← Option.some_inj.mp hget]
        intro hmem
        rcases List.mem_append.mp hmem with hm | hm
        · exact h a na hna hm
        · exact hne (List.mem_singleton.mp hm)
      · rw [mapGet_mapSet_ne _ _ _ _ hka] at hget
        exact h k n hget

theorem hasEdge_self_of_selfFree (g : DTG) (x : Str) (h : SelfFree g) :
    hasEdge g x x = false := by
  rw [hasEdge]
  by_cases hc : (hasVertex g x && hasVertex g x) = true
  · rw [if_pos hc]
    cases hget : mapGet g.map x with
    | none => rfl
    | some n =>
      cases hcont : n.vertexEnds.contains x with
      | false => exact hcont
      | true =>
        rw [contains_true_iff] at hcont
        exact absurd hcont (h x n hget)
  · rw [if_neg hc]

theorem mapSet_keys_nodup (m : List (Str × Node)) (k : Str) (n : Node)
    (h : (m.map Prod.fst).Nodup) : ((mapSet m k n).map Prod.fst).Nodup := by
  by_cases hp : (mapGet m k).isSome = true
  · rw [mapSet_keys_of_mem m k n hp]
    exact h
  · have hnone : mapGet m k = none := by
      revert hp; cases mapGet m k <;> simp
    rw [mapSet_keys_of_not_mem m k n hnone]
    have hnk : k ∉ m.map Prod.fst := by
      intro hmem
      exact hp ((mapGet_isSome_iff_mem m k).mpr hmem)
    simp [List.nodup_append, h, hnk]

theorem keysNodup_addVertices (g : DTG) (vs : List Str)
    (h : (keys g).Nodup) : (keys (addVertices g vs)).Nodup := by
  rw [keys, addVertices]
  by_cases hE : vs.isEmpty
  · rw [if_pos hE]; exact h
  · rw [if_neg hE]
    exact foldl_preserve
      (fun (m : List (Str × Node)) => (m.map Prod.fst).Nodup)
      (fun m v => mapSet m v (Node.mk v true []))
      (fun m w hm => mapSet_keys_nodup m w _ hm)
      (vs.filter (fun v => !hasVertex g v)) g.map h

theorem keysNodup_createEdge (g : DTG) (a b : Str)
    (h : (keys g).Nodup) : (keys (createEdge g a b)).Nodup := by
  rcases createEdge_cases g a b with heq | ⟨na, nb, hne, hna, hnb, hnedge, heq⟩
  · rw [heq]; exact h
  · rw [heq, keys]
    rw [mapSet_keys_of_mem, mapSet_keys_of_mem]
    · exact h
    · rw [hna]
      rfl
    · rw [mapGet_mapSet_ne _ _ _ _ hne, hnb]
      rfl

theorem getPaths_sorted (g : DTG) (ps : List (List Str)) (h : getPaths g = some ps) :
    List.Chain' (fun p q => p.length ≤ q.length) ps := by
  rw [getPaths, getPathsF] at h
  by_cases hE : g.map.isEmpty
  · rw [if_pos hE] at h
    rw [← Option.some_inj.mp h]
    exact List.chain'_nil
  · rw [if_neg hE] at h
    obtain ⟨ps0, hps0, hps⟩ := Option.map_eq_some'.mp h
    rw [← hps]
    exact chain'_sortByLen ps0

theorem getLoopCount_spec (g : DTG) (ps : List (List Str)) (h : getPaths g = some ps) :
    getLoopCount g = some ((ps.filter (fun p => decide (¬ p.Nodup))).length) := by
  rw [getLoopCount, h]
  rw [Option.map_some']
  congr 1
  rw [foldl_count (fun vv => (jsSetDedup vv).length ≠ vv.length) ps 0]
  rw [Nat.zero_add]
  apply congrArg List.length
  apply List.filter_congr
  intro x hx
  exact decide_eq_decide.mpr (not_congr (jsSetDedup_length_eq_iff x))

theorem isFullyConnected_iff (g : DTG) :
    isFullyConnected g = true ↔
      (g.map.filter (fun kn => kn.2.isRoot)).length = 1 := by
  rw [isFullyConnected]
  by_cases hE : g.map.isEmpty
  · rw [if_pos hE]
    have hnil : g.map = [] := List.isEmpty_iff.mp hE
    rw [hnil]
    simp
  · rw [if_neg hE]
    rw [foldl_count (fun (kn : Str × Node) => kn.2.isRoot = true) g.map 0]
    rw [Nat.zero_add]
    have hfe : g.map.filter (fun kn => decide (kn.2.isRoot = true)) =
        g.map.filter (fun kn => kn.2.isRoot) := by
      apply List.filter_congr
      intro x hx
      cases hb : x.2.isRoot <;> simp [hb]
    rw [hfe, beq_iff_eq]

/-- Chains of `getOrderedCharSetF` always have length at least 2: the
result is filtered by `length > 1` in every branch. -/
theorem getOrderedCharSetF_chains_long (fuel : Nat) (words : List Str)
    (res : List (List Str)) (h : getOrderedCharSetF fuel words = some res) :
    ∀ c ∈ res, 2 ≤ c.length := by
  cases fuel with
  | zero => simp [getOrderedCharSetF] at h
  | succ n =>
    rw [getOrderedCharSetF_succ] at h
    by_cases hE : words.isEmpty
    · rw [if_pos hE] at h
      intro c hc
      rw [← Option.some_inj.mp h] at hc
      cases hc
    · rw [if_neg hE] at h
      cases hX : (((groupByFirst words).map Prod.snd).filter
          (fun ws => 1 < ws.length)).foldlM
          (fun acc ws =>
            (getOrderedCharSetF n (ws.map (fun w => w.drop 1))).map
              (fun r => acc ++ r)) [] with
      | none =>
        rw [hX] at h
        exact absurd h (by simp)
      | some rest =>
        rw [hX] at h
        intro c hc
        rw [← Option.some_inj.mp h] at hc
        have := (List.mem_filter.mp hc).2
        have hlen : 1 < c.length := by simpa using this
        omega

/-! ## Claims -/

/-- C1: `extractAlphabetChars` applied to the word list
`["bca","aaa","acb","ddb","dca"]` returns exactly the sequence
`[b,a,d,c]`, obtained by selecting the single longest entry (last after
the ascending length sort) of `getPaths()` on the graph built from the
unique symbols and the extracted chains. -/
theorem c1_extract_worked_example :
    extractAlphabetChars exWords =
      some (some (["b", "a", "d", "c"].map String.toList)) ∧
    getPaths (buildDtg exWords) =
      some [["b", "a", "c"].map String.toList,
        ["b", "a", "d", "c"].map String.toList] ∧
    (getPaths (buildDtg exWords)).map List.getLast? =
      some (some (["b", "a", "d", "c"].map String.toList)) :=
  ⟨rfl, rfl, rfl⟩

/-- C2 counterexample: the claim that no exception crosses the public API
boundary — in particular that `extractAlphabetChars` and `getPaths`
return normally on the isolated-vertex input `["ab"]` — is false: the
traversal dereferences a missing vertex (the source reads
`vertexEnds[0]` of a root with no outgoing edges and recurses into
`undefined`) and the call terminates abortively, modelled by `none`. -/
theorem c2_counterexample : extractAlphabetChars abWords = none := rfl

/-- C2 (amended): exceptions can cross the public API boundary: on input
`["ab"]` the graph has a root vertex with zero outgoing edges, the
traversal dereferences a missing vertex, and `getPaths` (at any recursion
depth) and `extractAlphabetChars` abort instead of returning.  When the
graph has no root vertex at all, `getPaths` does return normally with the
empty path list, and `extractAlphabetChars` returns normally with the
JS value `undefined` (inner `none`). -/
theorem c2_exception_behaviour :
    extractAlphabetChars abWords = none ∧
    (∀ fuel, getPathsF (buildDtg abWords) fuel = none) ∧
    getPaths gNoRoot = some [] ∧
    extractAlphabetChars noRootWords = some none := by
  refine ⟨rfl, ?_, rfl, rfl⟩
  intro fuel
  cases fuel with
  | zero => rfl
  | succ n => rfl

/-- C3 counterexample: the claim that `getOrderedCharSet` terminates on
every non-empty list of strings — in particular on the duplicate word
list `["aa","aa"]` — is false: the all-empty-suffix group keeps recursing
on itself, so no recursion depth suffices (`none` at every fuel), which
in JS is a stack-overflow abort rather than a normal return. -/
theorem c3_counterexample :
    getOrderedCharSet dupWords = none ∧
    ∀ fuel, getOrderedCharSetF fuel dupWords = none :=
  ⟨rfl, fun fuel => getOrderedCharSetF_dup_none fuel ("aa".toList)⟩

/-- C3 (amended): `getOrderedCharSet` terminates on every list of
pairwise-distinct strings — the recursion reaches its base case because
every bucket that recurses holds at least two distinct words, whose
stripped suffixes are again distinct and strictly shorter.  But on a list
consisting of a word repeated twice (such as `["aa","aa"]`) the group
whose members have no remaining suffix recurses on itself forever, and
the call aborts with a stack overflow instead of returning. -/
theorem c3_termination :
    (∀ words : List Str, words.Nodup → (getOrderedCharSet words).isSome = true) ∧
    (∀ (s : Str) (fuel : Nat), getOrderedCharSetF fuel [s, s] = none) :=
  ⟨fun words h => getOrderedCharSet_total words h,
   fun s fuel => getOrderedCharSetF_dup_none fuel s⟩

/-- C3 witness: the amended claim applied to the concrete duplicate-free
list `["ab","a"]`. -/
theorem c3_witness :
    (["ab", "a"].map String.toList).Nodup ∧
    (getOrderedCharSet (["ab", "a"].map String.toList)).isSome = true :=
  ⟨by decide, c3_termination.1 (["ab", "a"].map String.toList) (by decide)⟩

/-- C4: `getOrderedCharSet` applied to `["bca","aaa","acb","ddb","dca"]`
returns exactly the three chains `[b,a,d]`, `[a,c]` and `[d,c]` (in this
order), and in general every returned chain has length at least 2 — all
length-1 group-key orderings are discarded by the final filter. -/
theorem c4_orderedCharSet_worked_example :
    getOrderedCharSet exWords = some exChains ∧
    (∀ (words : List Str) (res : List (List Str)),
      getOrderedCharSet words = some res → ∀ c ∈ res, 2 ≤ c.length) :=
  ⟨rfl, fun words res h => getOrderedCharSetF_chains_long _ words res h⟩

/-- C4 witness: the chain-length bound applied to the worked example and
its first returned chain. -/
theorem c4_witness :
    getOrderedCharSet exWords = some exChains ∧
    2 ≤ (["b", "a", "d"].map String.toList).length :=
  ⟨rfl, c4_orderedCharSet_worked_example.2 exWords exChains rfl
    (["b", "a", "d"].map String.toList) (by decide)⟩

/-- C5: `createEdge` is atomic on failure: a self-loop, a missing vertex,
or an existing edge makes the call a rejected no-op that leaves the graph
unchanged; and for every vertex of a graph built by the public calls,
`createEdge x x` leaves `hasEdge x x` false. -/
theorem c5_createEdge_atomic :
    (∀ (g : DTG) (a b : Str),
      a = b ∨ hasVertex g a = false ∨ hasVertex g b = false ∨ hasEdge g a b = true →
      createEdge g a b = g) ∧
    (∀ (ops : List GraphOp) (x : Str),
      hasVertex (runOps (DTG.mk []) ops) x = true →
      hasEdge (createEdge (runOps (DTG.mk []) ops) x x) x x = false) := by
  constructor
  · intro g a b h
    rcases createEdge_cases g a b with heq | ⟨na, nb, hne, hna, hnb, hnedge, heq⟩
    · exact heq
    · exfalso
      rcases h with h | h | h | h
      · exact hne h
      · rw [hasVertex, hna] at h
        simp at h
      · rw [hasVertex, hnb] at h
        simp at h
      · rw [hnedge] at h
        simp at h
  · intro ops x hx
    have hsf : SelfFree (runOps (DTG.mk []) ops) :=
      runOps_preserve SelfFree selfFree_addVertices selfFree_createEdge ops
        (DTG.mk []) (fun k n hget => by simp [mapGet] at hget)
    have hid : createEdge (runOps (DTG.mk []) ops) x x = runOps (DTG.mk []) ops := by
      rw [createEdge, if_pos rfl]
    rw [hid]
    exact hasEdge_self_of_selfFree _ x hsf

/-- C5 witness: both parts applied to the graph with vertices `a`, `b`. -/
theorem c5_witness :
    hasVertex (runOps (DTG.mk []) [GraphOp.addV (["a", "b"].map String.toList)])
      "a".toList = true ∧
    hasEdge (createEdge (runOps (DTG.mk [])
      [GraphOp.addV (["a", "b"].map String.toList)]) "a".toList "a".toList)
      "a".toList "a".toList = false ∧
    createEdge (runOps (DTG.mk []) [GraphOp.addV (["a", "b"].map String.toList)])
      "a".toList "a".toList =
      runOps (DTG.mk []) [GraphOp.addV (["a", "b"].map String.toList)] :=
  ⟨by decide,
   c5_createEdge_atomic.2 [GraphOp.addV (["a", "b"].map String.toList)]
     "a".toList (by decide),
   c5_createEdge_atomic.1 _ "a".toList "a".toList (Or.inl rfl)⟩


/-- In a duplicate-free list, a member occurs exactly once. -/
theorem filter_eq_length_one (l : List Str) (v : Str)
    (hnd : l.Nodup) (hmem : v ∈ l) :
    (l.filter (fun k => decide (k = v))).length = 1 := by
  induction l with
  | nil => cases hmem
  | cons a rest ih =>
    by_cases ha : a = v
    · subst ha
      have hnin : a ∉ rest := (List.nodup_cons.mp hnd).1
      have hrest : rest.filter (fun k => decide (k = a)) = [] := by
        apply List.filter_eq_nil_iff.mpr
        intro x hx
        simp only [decide_eq_true_eq]
        intro heq
        subst heq
        exact hnin hx
      simp [List.filter_cons, hrest]
    · have hmem2 : v ∈ rest := by
        rcases List.mem_cons.mp hmem with h1 | h1
        · exact absurd h1.symm ha
        · exact h1
      have hlen := ih (List.nodup_cons.mp hnd).2 hmem2
      simp [List.filter_cons, ha, hlen]

/-- C6: across every sequence of public mutating calls: vertices are
never removed, edges are never removed, a vertex whose `isRoot` flag is
false keeps it false forever, every present symbol of a graph built from
empty has exactly one vertex, and re-adding an already-present symbol
leaves its node (edges and root flag) untouched. -/
theorem c6_graph_invariants :
    (∀ (ops : List GraphOp) (g : DTG) (v : Str), hasVertex g v = true →
      hasVertex (runOps g ops) v = true) ∧
    (∀ (ops : List GraphOp) (g : DTG) (a b : Str), hasEdge g a b = true →
      hasEdge (runOps g ops) a b = true) ∧
    (∀ (ops : List GraphOp) (g : DTG) (v : Str),
      hasVertex g v = true → isRootVertex g v = false →
      isRootVertex (runOps g ops) v = false) ∧
    (∀ (ops : List GraphOp) (v : Str),
      hasVertex (runOps (DTG.mk []) ops) v = true →
      ((keys (runOps (DTG.mk []) ops)).filter (fun k => decide (k = v))).length = 1) ∧
    (∀ (g : DTG) (vs : List Str) (v : Str), hasVertex g v = true →
      mapGet (addVertices g vs).map v = mapGet g.map v) := by
  refine ⟨?_, ?_, ?_, ?_, ?_⟩
  · intro ops g v h
    exact runOps_preserve (fun g => hasVertex g v = true)
      (fun g vs h => addVertices_hasVertex g vs v h)
      (fun g a b h => createEdge_hasVertex g a b v h) ops g h
  · intro ops g a b h
    exact runOps_preserve (fun g => hasEdge g a b = true)
      (fun g vs h => addVertices_hasEdge g vs a b h)
      (fun g x y h => createEdge_hasEdge g x y a b h) ops g h
  · intro ops g v h1 h2
    have main := runOps_preserve
      (fun g => hasVertex g v = true ∧ isRootVertex g v = false)
      (fun g vs h => ⟨addVertices_hasVertex g vs v h.1,
        addVertices_isRootFalse g vs v h.1 h.2⟩)
      (fun g a b h => ⟨createEdge_hasVertex g a b v h.1,
        createEdge_isRootFalse g a b v h.2⟩) ops g ⟨h1, h2⟩
    exact main.2
  · intro ops v h
    have hnd : (keys (runOps (DTG.mk []) ops)).Nodup :=
      runOps_preserve (fun g => (keys g).Nodup)
        keysNodup_addVertices keysNodup_createEdge ops (DTG.mk []) (by simp [keys])
    have hmem : v ∈ keys (runOps (DTG.mk []) ops) :=
      (mapGet_isSome_iff_mem _ v).mp h
    exact filter_eq_length_one _ v hnd hmem
  · intro g vs v h
    exact addVertices_mapGet_of_mem g vs v h

/-- C6 witness: the invariants applied to concrete graphs over `a`, `b`
with the edge `a→b`, then re-adding `a` and adding `c`. -/
theorem c6_witness :
    hasVertex gW "a".toList = true ∧
    hasVertex (runOps gW [GraphOp.edge "a".toList "b".toList,
      GraphOp.addV (["a", "c"].map String.toList)]) "a".toList = true ∧
    hasEdge (runOps gW2 [GraphOp.addV (["a", "c"].map String.toList)])
      "a".toList "b".toList = true ∧
    isRootVertex (runOps gW2 [GraphOp.addV (["a", "c"].map String.toList)])
      "b".toList = false ∧
    ((keys (runOps (DTG.mk []) [GraphOp.addV (["a", "b"].map String.toList),
      GraphOp.edge "a".toList "b".toList])).filter
        (fun k => decide (k = "a".toList))).length = 1 ∧
    mapGet (addVertices gW2 (["a", "c"].map String.toList)).map "a".toList =
      mapGet gW2.map "a".toList :=
  ⟨by decide,
   c6_graph_invariants.1 [GraphOp.edge "a".toList "b".toList,
     GraphOp.addV (["a", "c"].map String.toList)] gW "a".toList (by decide),
   c6_graph_invariants.2.1 [GraphOp.addV (["a", "c"].map String.toList)] gW2
     "a".toList "b".toList (by decide),
   c6_graph_invariants.2.2.1 [GraphOp.addV (["a", "c"].map String.toList)] gW2
     "b".toList (by decide) (by decide),
   c6_graph_invariants.2.2.2.1 [GraphOp.addV (["a", "b"].map String.toList),
     GraphOp.edge "a".toList "b".toList] "a".toList (by decide),
   c6_graph_invariants.2.2.2.2 gW2 (["a", "c"].map String.toList)
     "a".toList (by decide)⟩

/-- C7: `getPaths` returns the root-to-terminal paths sorted ascending by
length; on the unit-test graph over `{a,…,i,x,y,z}` it yields exactly the
6 expected paths in ascending length order, the last (longest) being
`[a,b,c,d,e,f,g]`. -/
theorem c7_getPaths_test_graph :
    getPaths g7 = some g7Paths ∧
    g7Paths.length = 6 ∧
    g7Paths.getLast? = some (["a", "b", "c", "d", "e", "f", "g"].map String.toList) ∧
    (∀ (g : DTG) (ps : List (List Str)), getPaths g = some ps →
      List.Chain' (fun p q => p.length ≤ q.length) ps) :=
  ⟨rfl, rfl, rfl, getPaths_sorted⟩

/-- C7 witness: the ascending-length property applied to the unit-test
graph's own path list. -/
theorem c7_witness :
    getPaths g7 = some g7Paths ∧
    List.Chain' (fun p q => p.length ≤ q.length) g7Paths :=
  ⟨rfl, c7_getPaths_test_graph.2.2.2 g7 g7Paths rfl⟩

/-- C8: `isFullyConnected` is true exactly when one node carries the root
flag; it is false on the empty graph, false for the two disjoint chains
`a→b→c` and `d→e→f`, and true once the edge `c→d` joins them. -/
theorem c8_isFullyConnected :
    (∀ g : DTG, isFullyConnected g = true ↔
      (g.map.filter (fun kn => kn.2.isRoot)).length = 1) ∧
    isFullyConnected (DTG.mk []) = false ∧
    isFullyConnected g8a = false ∧
    isFullyConnected g8b = true :=
  ⟨isFullyConnected_iff, rfl, rfl, rfl⟩

/-- C9: `getLoopCount` is the number of `getPaths` entries containing a
duplicate symbol; it is `0` for the chain `a→b→c→d` and `1` after the
loop-closing edge `d→b` is added. -/
theorem c9_getLoopCount :
    (∀ (g : DTG) (ps : List (List Str)), getPaths g = some ps →
      getLoopCount g = some ((ps.filter (fun p => decide (¬ p.Nodup))).length)) ∧
    getLoopCount g9a = some 0 ∧
    getLoopCount g9b = some 1 :=
  ⟨getLoopCount_spec, rfl, rfl⟩

/-- C9 witness: the duplicate-count characterisation applied to the
looping graph, whose single path is `[a,b,c,d,b]`. -/
theorem c9_witness :
    getPaths g9b = some [["a", "b", "c", "d", "b"].map String.toList] ∧
    getLoopCount g9b = some (([["a", "b", "c", "d", "b"].map String.toList].filter
      (fun p => decide (¬ p.Nodup))).length) :=
  ⟨rfl, c9_getLoopCount.1 g9b [["a", "b", "c", "d", "b"].map String.toList] rfl⟩

/-- C10: when one word of a first-symbol group is a proper prefix of a
longer sibling — input `["ab","a"]` — the fully stripped word is grouped
under the empty-string key and `getOrderedCharSet` returns the chain
`["b", ""]` containing the empty string, a pseudo-symbol that is not a
character of any input word. -/
theorem c10_empty_string_pseudo_symbol :
    getOrderedCharSet prefixWords = some [["b".toList, ([] : Str)]] ∧
    ([] : Str) ∈ ["b".toList, ([] : Str)] ∧
    (∀ w ∈ prefixWords, ∀ c ∈ w, ([c] : Str) ≠ ([] : Str)) :=
  ⟨rfl, by decide, by decide⟩
